import Mathlib

/-!
# One-billion-row aggregation pipeline (`main.go`)

A shallow embedding of `doStuff`, `processChunk` and `printStuff`.

* A Go `[]byte` or `string` is a list of byte values (`List Nat`); `'\n'` is 10 and `';'` is 59.
* A Go `map[string]stationData` is an association list with distinct keys.  A lookup returns the
  stored value, an insertion of an absent key appends a pair.
* `float32` arithmetic, `strconv.ParseFloat` and the `%0.1f` verb are taken as a parameter
  (`Float32Ops`), so that the general theorems hold for every interpretation of them.  A concrete
  interpretation over the rationals (`ratOps`) is used to run the code on concrete files, and
  one over the rationals extended with NaN (`nanOps`) where a value field reads NaN.
* The file is the list of its bytes; `f.Read` returns the next `min (len buf) remaining` bytes and
  reports `io.EOF` when nothing is left.  Other I/O errors are not modelled.
* Abnormal termination is a `Fault`: `log.Fatalf` in `processChunk`, or the runtime panic of an
  out-of-range slice expression in the splitter.
* The pipeline is run sequentially: the splitter first, then `processChunk` on every chunk in the
  order of emission, then the merge loop on the partial tables in that order.
-/

namespace Brc

/-- Byte strings: Go `string` and `[]byte`. -/
abbrev Key := List Nat

/-- Bytes of an ASCII string literal. -/
def bytesOf (s : String) : List Nat := s.toList.map Char.toNat

/-- The Go struct `stationData`. -/
structure stationData (F : Type) where
  min : F
  max : F
  sum : F
  cnt : Int
deriving DecidableEq

/-- The Go type `map[string]stationData`. -/
abbrev Table (F : Type) := List (Key × stationData F)

/-- Interpretation of the floating-point operations the program uses. -/
structure Float32Ops (F : Type) where
  /-- the zero value of `float32` -/
  zero : F
  /-- the comparison `a < b` -/
  lt : F → F → Bool
  /-- the sum `a + b` -/
  add : F → F → F
  /-- the quotient `a / b` -/
  div : F → F → F
  /-- the conversion `float32(n)` of an `int` -/
  ofInt : Int → F
  /-- `strconv.ParseFloat(s, 64)` followed by the conversion to `float32`; `none` is `err != nil` -/
  parseFloat : List Nat → Option F
  /-- rendering with the verb `%0.1f` -/
  fmt1 : F → List Nat

deriving instance DecidableEq for Except

/-- Abnormal termination of the process. -/
inductive Fault where
  /-- `log.Fatalf("failed to convert %s into float", tempStr)` -/
  | fatal (tempStr : List Nat)
  /-- runtime panic: slice bounds out of range -/
  | sliceOutOfRange
  /-- the model ran out of fuel (never happens, see `splitter_fuel`) -/
  | outOfFuel
deriving DecidableEq

/-- Map lookup `v, ok := mp[key]`. -/
def lookup {F : Type} (key : Key) : Table F → Option (stationData F)
  | [] => none
  | (k, v) :: rest => if k = key then some v else lookup key rest

/-! ## processChunk -/

/-- Lines 139-150: the body run for one parsed observation `(city, temp)`.
In the `else` branch the updates are made on the local copy `station`, which is
not stored back in `mp`. -/
def foldObservation {F : Type} (M : Float32Ops F) (mp : Table F) (city : Key) (temp : F) :
    Table F :=
  match lookup city mp with
  | none => mp ++ [(city, ⟨temp, temp, temp, 1⟩)]
  | some station =>
    let station : stationData F :=
      if M.lt temp station.min then { station with min := temp }
      else if M.lt station.max temp then { station with max := temp }
      else station
    let station : stationData F := { station with sum := M.add station.sum temp }
    let _station : stationData F := { station with cnt := station.cnt + 1 }
    mp

/-- Local state of the loop of `processChunk`. -/
structure ScanState (F : Type) where
  mp : Table F
  city : Key
  builder : List Nat
deriving DecidableEq

/-- One iteration of `for _, ch := range buffer` (lines 127-158). -/
def processByte {F : Type} (M : Float32Ops F) (st : ScanState F) (ch : Nat) :
    Except Fault (ScanState F) :=
  if ch = 10 then
    if st.builder.length ≠ 0 then
      let tempStr := st.builder
      match M.parseFloat tempStr with
      | none => .error (.fatal tempStr)
      | some temp =>
        .ok { mp := foldObservation M st.mp st.city temp, city := st.city, builder := [] }
    else .ok st
  else if ch = 59 then
    .ok { mp := st.mp, city := st.builder, builder := [] }
  else
    .ok { mp := st.mp, city := st.city, builder := st.builder ++ [ch] }

/-- The loop `for _, ch := range buffer`. -/
def scanLoop {F : Type} (M : Float32Ops F) : ScanState F → List Nat → Except Fault (ScanState F)
  | st, [] => .ok st
  | st, ch :: rest =>
    match processByte M st ch with
    | .error e => .error e
    | .ok st' => scanLoop M st' rest

/-- The function `processChunk`: the partial table sent on `stream`, or the fatal error. -/
def processChunk {F : Type} (M : Float32Ops F) (buffer : List Nat) : Except Fault (Table F) :=
  match scanLoop M ⟨[], [], []⟩ buffer with
  | .error e => .error e
  | .ok st => .ok st.mp

/-! ## The chunk splitter -/

/-- The constant `chunkSize := 4 * 1024 * 1024`. -/
def chunkSize : Nat := 4 * 1024 * 1024

/-- Scan for `bytes.LastIndex` with a one-byte separator: `i` is the current index,
`best` the last index found so far. -/
def lastIndexFrom (c : Nat) : List Nat → Int → Int → Int
  | [], _, best => best
  | x :: xs, i, best => lastIndexFrom c xs (i + 1) (if x = c then i else best)

/-- The call `bytes.LastIndex(b, []byte{c})`: the last index of `c` in `b`, or `-1`. -/
def lastIndex (b : List Nat) (c : Nat) : Int := lastIndexFrom c b 0 (-1)

/-- State of the splitter goroutine. -/
structure SplitState where
  /-- the part of the file not read yet -/
  rest : List Nat
  /-- the current `len(readChunk)` -/
  bufLen : Nat
  leftChunk : List Nat
  /-- the chunks sent on `bytesStream` so far -/
  sent : List (List Nat)

/-- The loop of the splitter goroutine (lines 63-81); returns the chunks sent on `bytesStream`. -/
def splitLoop : Nat → SplitState → Except Fault (List (List Nat))
  | 0, _ => .error .outOfFuel
  | fuel + 1, st =>
    let block := st.rest.take st.bufLen
    let read := block.length
    if read = 0 ∧ 0 < st.bufLen then .ok st.sent
    else
      let readChunk := block
      let sendUpto := lastIndex readChunk 10
      if sendUpto < 0 then .error .sliceOutOfRange
      else
        let sendCopy := st.leftChunk ++ readChunk.take sendUpto.toNat
        let tail := readChunk.drop (sendUpto.toNat + 1)
        let leftChunk := List.replicate tail.length 0 ++ tail
        splitLoop fuel
          { rest := st.rest.drop read, bufLen := read, leftChunk := leftChunk,
            sent := st.sent ++ [sendCopy] }

/-- The splitter goroutine on a file, with block size `size`. -/
def splitter (size : Nat) (file : List Nat) : Except Fault (List (List Nat)) :=
  splitLoop (file.length + 1) ⟨file, size, [], []⟩

/-- The workers: `processChunk` on every chunk sent on `bytesStream`; the first fatal error
ends the process. -/
def processAll {F : Type} (M : Float32Ops F) : List (List Nat) → Except Fault (List (Table F))
  | [] => .ok []
  | byteChunk :: more =>
    match processChunk M byteChunk with
    | .error e => .error e
    | .ok smallMap =>
      match processAll M more with
      | .error e => .error e
      | .ok maps => .ok (smallMap :: maps)

/-! ## The merge loop -/

/-- Lines 104-116: the body run for one entry `(city, info)` of an incoming partial table.
In the first branch the updates are made on the local copy `station`, which is not stored
back in `mp` (the results of the additions are dropped, so their overflow cannot matter). -/
def mergeEntry {F : Type} (M : Float32Ops F) (mp : Table F) (city : Key) (info : stationData F) :
    Table F :=
  match lookup city mp with
  | some station =>
    let station : stationData F := { station with sum := M.add station.sum info.sum }
    let station : stationData F := { station with cnt := station.cnt + info.cnt }
    let station : stationData F :=
      if M.lt station.max info.max then { station with max := info.max } else station
    let _station : stationData F :=
      if M.lt info.min station.min then { station with min := info.min } else station
    mp
  | none => mp ++ [(city, info)]

/-- The loop `for city, info := range smallMap` (lines 103-117). -/
def mergeTable {F : Type} (M : Float32Ops F) (mp smallMap : Table F) : Table F :=
  smallMap.foldl (fun acc entry => mergeEntry M acc entry.1 entry.2) mp

/-- The loop `for smallMap := range stream` (lines 101-118), on the partial tables in their
order of arrival; `mp` starts empty. -/
def mergeLoop {F : Type} (M : Float32Ops F) (stream : List (Table F)) : Table F :=
  stream.foldl (mergeTable M) []

/-! ## printStuff -/

/-- Lexicographic byte order `a ≤ b` on strings, the order of `sort.Strings`. -/
def keyLE : Key → Key → Bool
  | [], _ => true
  | _ :: _, [] => false
  | a :: as, b :: bs => decide (a < b) || (a == b && keyLE as bs)

/-- The call `sort.Strings(cities)`. -/
def sortStrings (cities : List Key) : List Key :=
  List.insertionSort (fun a b => keyLE a b = true) cities

/-- The two output streams of the process. -/
inductive OutStream where
  /-- standard output, written by `fmt.Printf` -/
  | stdout
  /-- standard error, written by the builtin `print` -/
  | stderr
deriving DecidableEq

/-- One write of the process: the stream and the bytes. -/
structure Write where
  stream : OutStream
  text : List Nat
deriving DecidableEq

/-- The slice `cities` after `sort.Strings` (lines 163-169): `make([]string, len(mp))`
holds `len(mp)` empty strings, to which the keys of `mp` are appended. -/
def sortedCities {F : Type} (mp : Table F) : List Key :=
  sortStrings (List.replicate mp.length [] ++ mp.map Prod.fst)

/-- The map read `val := mp[city]`: the zero value of `stationData` for an absent key. -/
def mapRead {F : Type} (M : Float32Ops F) (mp : Table F) (city : Key) : stationData F :=
  match lookup city mp with
  | some val => val
  | none => ⟨M.zero, M.zero, M.zero, 0⟩

/-- Line 174: the write of
`fmt.Printf("%s=%0.1f/%0.1f/%0.1f\n", city, val.min, val.sum/float32(val.cnt), val.max)`. -/
def cityLine {F : Type} (M : Float32Ops F) (mp : Table F) (city : Key) : Write :=
  let val := mapRead M mp city
  ⟨.stdout, city ++ [61] ++ M.fmt1 val.min ++ [47] ++ M.fmt1 (M.div val.sum (M.ofInt val.cnt))
    ++ [47] ++ M.fmt1 val.max ++ [10]⟩

/-- The function `printStuff`: the writes it makes, in order. -/
def printStuff {F : Type} (M : Float32Ops F) (mp : Table F) : List Write :=
  [⟨.stderr, [123, 10]⟩] ++ (sortedCities mp).map (cityLine M mp) ++ [⟨.stderr, [125, 10]⟩]

/-- The bytes written by a run, whatever the stream, in order. -/
def rendered (ws : List Write) : List Nat := (ws.map Write.text).flatten

/-! ## doStuff -/

/-- The final table `mp` of `doStuff` for a file read in blocks of `size` bytes. -/
def finalTable {F : Type} (M : Float32Ops F) (size : Nat) (file : List Nat) :
    Except Fault (Table F) :=
  match splitter size file with
  | .error e => .error e
  | .ok chunks =>
    match processAll M chunks with
    | .error e => .error e
    | .ok maps => .ok (mergeLoop M maps)

/-- The function `doStuff` on the content of `measurements.txt`: the writes of the run,
or the fault that ends it. -/
def doStuff {F : Type} (M : Float32Ops F) (file : List Nat) : Except Fault (List Write) :=
  match finalTable M chunkSize file with
  | .error e => .error e
  | .ok mp => .ok (printStuff M mp)

/-! ## A concrete interpretation over the rationals -/

/-- ASCII decimal digit. -/
def isDigit (b : Nat) : Bool := decide (48 ≤ b) && decide (b ≤ 57)

/-- Value of a string of decimal digits. -/
def digitsValue (ds : List Nat) : Nat := ds.foldl (fun acc d => 10 * acc + (d - 48)) 0

/-- Unsigned decimal numeral: digits with an optional point, at least one digit.  The result
`(n, k)` stands for the value `n / 10 ^ k`. -/
def parseUnsigned (s : List Nat) : Option (Nat × Nat) :=
  let ip := s.takeWhile isDigit
  match s.dropWhile isDigit with
  | [] => if ip.length = 0 then none else some (digitsValue ip, 0)
  | 46 :: fp =>
    if fp.all isDigit && (ip.length != 0 || fp.length != 0) then
      some (digitsValue (ip ++ fp), fp.length)
    else none
  | _ :: _ => none

/-- The decimal numerals accepted by `strconv.ParseFloat`, with their exact value: an optional
sign, digits and an optional point.  Every other string is rejected (exponents, hexadecimal
numerals, infinities and NaN are left out; see `parseWithNaN` for NaN), and the value is not
rounded to `float32` nor checked against its range. -/
def parseDecimal : List Nat → Option ℚ
  | 45 :: s => (parseUnsigned s).map (fun p => mkRat (-(p.1 : Int)) (10 ^ p.2))
  | 43 :: s => (parseUnsigned s).map (fun p => mkRat (p.1 : Int) (10 ^ p.2))
  | s => (parseUnsigned s).map (fun p => mkRat (p.1 : Int) (10 ^ p.2))

/-- Decimal digits of a natural number, most significant first. -/
def natDigits (n : Nat) : List Nat := ((Nat.digits 10 n).reverse).map (fun d => d + 48)

/-- Rendering of a rational with one fractional digit, rounded to the nearest tenth. -/
def fmtTenths (q : ℚ) : List Nat :=
  let t : Int := round (q * 10)
  let a : Nat := t.natAbs
  (if t < 0 then [45] else []) ++ (if a / 10 = 0 then [48] else natDigits (a / 10))
    ++ [46, a % 10 + 48]

/-- Exact rational arithmetic as an interpretation of the floating-point operations. -/
def ratOps : Float32Ops ℚ where
  zero := 0
  lt := fun a b => decide (a < b)
  add := fun a b => a + b
  div := fun a b => a / b
  ofInt := fun n => (n : ℚ)
  parseFloat := parseDecimal
  fmt1 := fmtTenths


/-! ## An interpretation with NaN -/

/-- The comparison `a ≤ b` of float values, where `none` is NaN: it is false as soon as one
side is NaN, so that NaN is not less than or equal to itself. -/
def nanLE : Option ℚ → Option ℚ → Bool
  | some x, some y => decide (x ≤ y)
  | _, _ => false

/-- The numerals of `parseDecimal`, and the numeral NaN, which `strconv.ParseFloat` accepts
without error and reads as the value NaN. -/
def parseWithNaN (s : List Nat) : Option (Option ℚ) :=
  if s = [78, 97, 78] then some none else (parseDecimal s).map some

/-- Rational arithmetic extended with NaN (`none`) as an interpretation of the floating-point
operations: every operation on NaN yields NaN and every comparison with NaN is false.
Infinities are not represented (a quotient by zero is NaN here). -/
def nanOps : Float32Ops (Option ℚ) where
  zero := some 0
  lt := fun a b =>
    match a, b with
    | some x, some y => decide (x < y)
    | _, _ => false
  add := fun a b =>
    match a, b with
    | some x, some y => some (x + y)
    | _, _ => none
  div := fun a b =>
    match a, b with
    | some x, some y => if y = 0 then none else some (x / y)
    | _, _ => none
  ofInt := fun n => some (n : ℚ)
  parseFloat := parseWithNaN
  fmt1 := fun a =>
    match a with
    | some x => fmtTenths x
    | none => [78, 97, 78]

/-! ## Definitions used to state the properties -/

deriving instance DecidableEq for SplitState

/-- One iteration of the splitter loop (lines 64-80): `none` when the read reports `io.EOF`
and the loop breaks, the fault when a slice expression is out of range, else the state after
the send. -/
def splitStep (st : SplitState) : Except Fault (Option SplitState) :=
  let block := st.rest.take st.bufLen
  let read := block.length
  if read = 0 ∧ 0 < st.bufLen then .ok none
  else
    let readChunk := block
    let sendUpto := lastIndex readChunk 10
    if sendUpto < 0 then .error .sliceOutOfRange
    else
      let sendCopy := st.leftChunk ++ readChunk.take sendUpto.toNat
      let tail := readChunk.drop (sendUpto.toNat + 1)
      let leftChunk := List.replicate tail.length 0 ++ tail
      .ok (some { rest := st.rest.drop read, bufLen := read, leftChunk := leftChunk,
                  sent := st.sent ++ [sendCopy] })

/-- The bytes written on one stream, in order. -/
def written (s : OutStream) (ws : List Write) : List Nat :=
  ((ws.filter (fun w => decide (w.stream = s))).map Write.text).flatten

/-- The observation for which lines 139-150 run in one iteration of the loop of
`processChunk`, if any: the byte is a line terminator, the builder is not empty and its
content parses. -/
def observed {F : Type} (M : Float32Ops F) (st : ScanState F) (ch : Nat) : Option (Key × F) :=
  if ch = 10 ∧ st.builder.length ≠ 0 then
    match M.parseFloat st.builder with
    | some temp => some (st.city, temp)
    | none => none
  else none

/-- The observations `(city, temp)` for which lines 139-150 run during the loop of
`processChunk` from the state `st`, in order. -/
def observations {F : Type} (M : Float32Ops F) : ScanState F → List Nat → List (Key × F)
  | _, [] => []
  | st, ch :: rest =>
    match processByte M st ch with
    | .error _ => []
    | .ok st' => (observed M st ch).toList ++ observations M st' rest

/-- The value of the first observation of the key `key` in a list of observations. -/
def firstObservation {F : Type} (key : Key) : List (Key × F) → Option F
  | [] => none
  | (city, temp) :: rest => if city = key then some temp else firstObservation key rest

/-- The value of the first observation of `key` in the first chunk that has one. -/
def firstObservationIn {F : Type} (M : Float32Ops F) (key : Key) (chunks : List (List Nat)) :
    Option F :=
  chunks.findSome? (fun byteChunk => firstObservation key (observations M ⟨[], [], []⟩ byteChunk))

/-- An aggregate as line 141 stores it: count 1 and min, max and sum one same value. -/
def Seeded {F : Type} (d : stationData F) : Prop :=
  d.cnt = 1 ∧ d.min = d.sum ∧ d.max = d.sum

/-! ## The order of `sort.Strings` -/

theorem keyLE_refl (a : Key) : keyLE a a = true := by
  induction a with
  | nil => rfl
  | cons x xs ih => simp [keyLE, ih]

theorem keyLE_total (a b : Key) : keyLE a b = true ∨ keyLE b a = true := by
  induction a generalizing b with
  | nil => left; rfl
  | cons x xs ih =>
    cases b with
    | nil => right; rfl
    | cons y ys =>
      simp only [keyLE, Bool.or_eq_true, Bool.and_eq_true, decide_eq_true_eq, beq_iff_eq]
      rcases Nat.lt_trichotomy x y with h | h | h
      · exact Or.inl (Or.inl h)
      · subst h
        rcases ih ys with h1 | h1
        · exact Or.inl (Or.inr ⟨rfl, h1⟩)
        · exact Or.inr (Or.inr ⟨rfl, h1⟩)
      · exact Or.inr (Or.inl h)

theorem keyLE_trans (a b c : Key) (hab : keyLE a b = true) (hbc : keyLE b c = true) :
    keyLE a c = true := by
  induction a generalizing b c with
  | nil => rfl
  | cons x xs ih =>
    cases b with
    | nil => simp [keyLE] at hab
    | cons y ys =>
      cases c with
      | nil => simp [keyLE] at hbc
      | cons z zs =>
        simp only [keyLE, Bool.or_eq_true, Bool.and_eq_true, decide_eq_true_eq, beq_iff_eq]
          at hab hbc ⊢
        rcases hab with h1 | ⟨h1, h1'⟩
        · rcases hbc with h2 | ⟨h2, _⟩
          · exact Or.inl (Nat.lt_trans h1 h2)
          · exact Or.inl (h2 ▸ h1)
        · rcases hbc with h2 | ⟨h2, h2'⟩
          · exact Or.inl (h1 ▸ h2)
          · exact Or.inr ⟨h1.trans h2, ih ys zs h1' h2'⟩

/-- The order `keyLE` is the lexicographic order of the byte sequences. -/
theorem keyLE_iff_lex (a b : Key) :
    keyLE a b = true ↔ a = b ∨ List.Lex (fun x y : Nat => x < y) a b := by
  induction a generalizing b with
  | nil =>
    cases b with
    | nil => simp [keyLE]
    | cons y ys => simp [keyLE, List.Lex.nil]
  | cons x xs ih =>
    cases b with
    | nil => simp [keyLE, List.Lex.not_nil_right]
    | cons y ys =>
      simp only [keyLE, Bool.or_eq_true, Bool.and_eq_true, decide_eq_true_eq, beq_iff_eq, ih ys]
      constructor
      · rintro (h | ⟨rfl, rfl | h⟩)
        · exact Or.inr (List.Lex.rel h)
        · exact Or.inl rfl
        · exact Or.inr (List.Lex.cons h)
      · rintro (h | h)
        · injection h with h1 h2
          exact Or.inr ⟨h1, Or.inl h2⟩
        · cases h with
          | cons h => exact Or.inr ⟨rfl, Or.inr h⟩
          | rel h => exact Or.inl h

theorem sortStrings_sorted (cities : List Key) :
    List.Pairwise (fun a b => keyLE a b = true) (sortStrings cities) :=
  @List.sorted_insertionSort Key (fun a b => keyLE a b = true) _ ⟨keyLE_total⟩
    ⟨fun a b c => keyLE_trans a b c⟩ cities

theorem sortStrings_perm (cities : List Key) : List.Perm (sortStrings cities) cities :=
  List.perm_insertionSort (fun a b => keyLE a b = true) cities

theorem sortedCities_length {F : Type} (mp : Table F) :
    (sortedCities mp).length = 2 * mp.length := by
  unfold sortedCities sortStrings
  rw [List.length_insertionSort]
  simp
  omega


/-! ## The loop of `processChunk` -/

theorem scanLoop_append {F : Type} (M : Float32Ops F) (st : ScanState F) (xs ys : List Nat) :
    scanLoop M st (xs ++ ys) =
      match scanLoop M st xs with
      | .error e => .error e
      | .ok st' => scanLoop M st' ys := by
  induction xs generalizing st with
  | nil => rfl
  | cons x xs ih =>
    simp only [List.cons_append, scanLoop]
    cases processByte M st x with
    | error e => rfl
    | ok st' => exact ih st'

theorem processByte_error_fatal {F : Type} (M : Float32Ops F) (st : ScanState F) (ch : Nat)
    (e : Fault) (h : processByte M st ch = .error e) : ∃ s, e = .fatal s := by
  unfold processByte at h
  split_ifs at h
  · cases hp : M.parseFloat st.builder with
    | none =>
      simp only [hp] at h
      injection h with h
      exact ⟨st.builder, h.symm⟩
    | some temp => simp [hp] at h

theorem scanLoop_error_fatal {F : Type} (M : Float32Ops F) (st : ScanState F) (xs : List Nat)
    (e : Fault) (h : scanLoop M st xs = .error e) : ∃ s, e = .fatal s := by
  induction xs generalizing st with
  | nil => simp [scanLoop] at h
  | cons x xs ih =>
    simp only [scanLoop] at h
    cases hb : processByte M st x with
    | error e' =>
      simp only [hb] at h
      injection h with h
      subst h
      exact processByte_error_fatal M st x e' hb
    | ok st' =>
      simp only [hb] at h
      exact ih st' h

/-- Bytes other than the two delimiters are appended to the builder. -/
theorem scanLoop_field {F : Type} (M : Float32Ops F) (st : ScanState F) (field : List Nat)
    (hnl : 10 ∉ field) (hsemi : 59 ∉ field) :
    scanLoop M st field = .ok ⟨st.mp, st.city, st.builder ++ field⟩ := by
  induction field generalizing st with
  | nil => simp [scanLoop]
  | cons x xs ih =>
    have hx1 : x ≠ 10 := fun h => hnl (h ▸ List.mem_cons_self _ _)
    have hx2 : x ≠ 59 := fun h => hsemi (h ▸ List.mem_cons_self _ _)
    have hstep : processByte M st x = .ok ⟨st.mp, st.city, st.builder ++ [x]⟩ := by
      simp [processByte, hx1, hx2]
    simp only [scanLoop, hstep]
    rw [ih _ (fun h => hnl (List.mem_cons_of_mem _ h)) (fun h => hsemi (List.mem_cons_of_mem _ h))]
    simp

/-- After a line terminator the builder is empty. -/
theorem processByte_newline_builder {F : Type} (M : Float32Ops F) (st st' : ScanState F)
    (h : processByte M st 10 = .ok st') : st'.builder = [] := by
  unfold processByte at h
  simp only [if_true] at h
  split_ifs at h with hb
  · cases hp : M.parseFloat st.builder with
    | none => simp [hp] at h
    | some temp =>
      simp only [hp] at h
      injection h with h
      rw [← h]
  · injection h with h
    rw [← h]
    exact List.eq_nil_of_length_eq_zero (not_not.mp hb)

/-- A line terminator with a field that does not parse is fatal. -/
theorem processByte_newline_fatal {F : Type} (M : Float32Ops F) (st : ScanState F)
    (hne : st.builder ≠ []) (hparse : M.parseFloat st.builder = none) :
    processByte M st 10 = .error (.fatal st.builder) := by
  have hlen : st.builder.length ≠ 0 := fun h => hne (List.eq_nil_of_length_eq_zero h)
  simp [processByte, hlen, hparse]

/-- A line terminator with a field that parses folds the observation. -/
theorem processByte_newline_ok {F : Type} (M : Float32Ops F) (st : ScanState F) (temp : F)
    (hne : st.builder ≠ []) (hparse : M.parseFloat st.builder = some temp) :
    processByte M st 10 = .ok ⟨foldObservation M st.mp st.city temp, st.city, []⟩ := by
  have hlen : st.builder.length ≠ 0 := fun h => hne (List.eq_nil_of_length_eq_zero h)
  simp [processByte, hlen, hparse]


/-- After a field delimiter the builder is empty. -/
theorem scanLoop_semi_builder {F : Type} (M : Float32Ops F) (st st' : ScanState F)
    (pre : List Nat) (h : scanLoop M st (pre ++ [59]) = .ok st') : st'.builder = [] := by
  rw [scanLoop_append] at h
  cases hp : scanLoop M st pre with
  | error e => simp [hp] at h
  | ok st0 =>
    simp only [hp, scanLoop] at h
    have hb : processByte M st0 59 = .ok ⟨st0.mp, st0.builder, []⟩ := by simp [processByte]
    simp only [hb] at h
    injection h with h
    rw [← h]

/-- After a line terminator the builder is empty. -/
theorem scanLoop_newline_builder {F : Type} (M : Float32Ops F) (st st' : ScanState F)
    (pre : List Nat) (h : scanLoop M st (pre ++ [10]) = .ok st') : st'.builder = [] := by
  rw [scanLoop_append] at h
  cases hp : scanLoop M st pre with
  | error e => simp [hp] at h
  | ok st0 =>
    simp only [hp, scanLoop] at h
    cases hb : processByte M st0 10 with
    | error e => simp [hb] at h
    | ok st1 =>
      simp only [hb] at h
      injection h with h
      rw [← h]
      exact processByte_newline_builder M st0 st1 hb

/-- A complete field that does not parse, scanned from an empty builder, is fatal. -/
theorem scanLoop_bad_field {F : Type} (M : Float32Ops F) (st : ScanState F)
    (field post : List Nat) (hb : st.builder = []) (hne : field ≠ []) (hnl : 10 ∉ field)
    (hsemi : 59 ∉ field) (hparse : M.parseFloat field = none) :
    scanLoop M st (field ++ [10] ++ post) = .error (.fatal field) := by
  rw [List.append_assoc, scanLoop_append, scanLoop_field M st field hnl hsemi]
  simp only [hb, List.nil_append, List.singleton_append, scanLoop]
  rw [processByte_newline_fatal M ⟨st.mp, st.city, field⟩ hne hparse]

/-- A complete field that parses, scanned from an empty builder, is folded as an observation
of the current `city`. -/
theorem scanLoop_good_field {F : Type} (M : Float32Ops F) (st : ScanState F)
    (field : List Nat) (temp : F) (hb : st.builder = []) (hne : field ≠ []) (hnl : 10 ∉ field)
    (hsemi : 59 ∉ field) (hparse : M.parseFloat field = some temp) :
    scanLoop M st (field ++ [10]) = .ok ⟨foldObservation M st.mp st.city temp, st.city, []⟩ := by
  rw [scanLoop_append, scanLoop_field M st field hnl hsemi]
  simp only [hb, List.nil_append, scanLoop]
  rw [processByte_newline_ok M ⟨st.mp, st.city, field⟩ temp hne hparse]

/-- A line terminator met with an empty builder changes nothing. -/
theorem scanLoop_skip_newline {F : Type} (M : Float32Ops F) (st : ScanState F) (post : List Nat)
    (hb : st.builder = []) : scanLoop M st (10 :: post) = scanLoop M st post := by
  have h : processByte M st 10 = .ok st := by simp [processByte, hb]
  simp only [scanLoop, h]

theorem processChunk_error_of_scanLoop {F : Type} (M : Float32Ops F) (buffer : List Nat)
    (e : Fault) (h : scanLoop M ⟨[], [], []⟩ buffer = .error e) :
    processChunk M buffer = .error e := by
  simp [processChunk, h]

theorem processChunk_ok_of_scanLoop {F : Type} (M : Float32Ops F) (buffer : List Nat)
    (st : ScanState F) (h : scanLoop M ⟨[], [], []⟩ buffer = .ok st) :
    processChunk M buffer = .ok st.mp := by
  simp [processChunk, h]

/-- The scan of a prefix followed by a field that does not parse ends in a fatal error,
when the prefix leaves the builder empty. -/
theorem scanLoop_after_bad_field {F : Type} (M : Float32Ops F) (st : ScanState F)
    (pre field post : List Nat)
    (hpre : ∀ st', scanLoop M st pre = .ok st' → st'.builder = [])
    (hne : field ≠ []) (hnl : 10 ∉ field) (hsemi : 59 ∉ field)
    (hparse : M.parseFloat field = none) :
    ∃ s, scanLoop M st (pre ++ (field ++ [10] ++ post)) = .error (.fatal s) := by
  rw [scanLoop_append]
  cases hp : scanLoop M st pre with
  | error e =>
    obtain ⟨s, hs⟩ := scanLoop_error_fatal M st pre e hp
    exact ⟨s, by simp [hs]⟩
  | ok st1 =>
    exact ⟨field, scanLoop_bad_field M st1 field post (hpre st1 hp) hne hnl hsemi hparse⟩


/-! ## The splitter loop ends -/

theorem splitLoop_fuel (fuel : Nat) (st : SplitState) (h : st.rest.length < fuel) :
    splitLoop fuel st ≠ .error .outOfFuel := by
  induction fuel generalizing st with
  | zero => omega
  | succ fuel ih =>
    unfold splitLoop
    simp only []
    split_ifs with h1 h2
    · simp
    · simp
    · apply ih
      have hblock : (st.rest.take st.bufLen).length ≠ 0 := by
        intro h0
        have hnil : st.rest.take st.bufLen = [] := List.eq_nil_of_length_eq_zero h0
        rw [hnil] at h2
        exact h2 (by decide)
      have hle : (st.rest.take st.bufLen).length ≤ st.rest.length :=
        by rw [List.length_take]; exact Nat.min_le_right _ _
      simp only [List.length_drop]
      omega

/-- The fuel given to the splitter loop is enough: the model never runs out of it. -/
theorem splitter_fuel (size : Nat) (file : List Nat) :
    splitter size file ≠ .error .outOfFuel :=
  splitLoop_fuel (file.length + 1) ⟨file, size, [], []⟩ (Nat.lt_succ_self _)


/-! ## The pipeline on the files of the scenarios -/

/-- Claim C1, on the file of scenario 1 (one block, so one chunk): the splitter sends the block
without its last line terminator, so the third line is never folded, and a second observation
of a key would not be stored either.  The final table holds a with min 1, max 1, sum 1 and
count 1 (not min 1, mean 2, max 3, count 2) and b with 2, 2, 2 and count 1. -/
theorem finalTable_scenario1 :
    splitter chunkSize (bytesOf "a;1.0\nb;2.0\na;3.0\n") = .ok [bytesOf "a;1.0\nb;2.0\na;3.0"] ∧
    finalTable ratOps chunkSize (bytesOf "a;1.0\nb;2.0\na;3.0\n") =
      .ok [(bytesOf "a", ⟨1, 1, 1, 1⟩), (bytesOf "b", ⟨2, 2, 2, 1⟩)] ∧
    processChunk ratOps (bytesOf "a;1.0\nb;2.0\na;3.0\n") =
      .ok [(bytesOf "a", ⟨1, 1, 1, 1⟩), (bytesOf "b", ⟨2, 2, 2, 1⟩)] := by
  decide

/-- Claim C2, on the file with the two lines a;1.0 and b;2.0: read in blocks of 6 bytes the
final table is empty, read in one block of 4 MiB it holds the key a only, read in blocks of 3
bytes (shorter than a line) the splitter panics, and the whole file given to processChunk as
one chunk yields both keys. -/
theorem finalTable_depends_on_block_size :
    finalTable ratOps 6 (bytesOf "a;1.0\nb;2.0\n") = .ok [] ∧
    finalTable ratOps chunkSize (bytesOf "a;1.0\nb;2.0\n") = .ok [(bytesOf "a", ⟨1, 1, 1, 1⟩)] ∧
    finalTable ratOps 3 (bytesOf "a;1.0\nb;2.0\n") = .error .sliceOutOfRange ∧
    processChunk ratOps (bytesOf "a;1.0\nb;2.0\n") =
      .ok [(bytesOf "a", ⟨1, 1, 1, 1⟩), (bytesOf "b", ⟨2, 2, 2, 1⟩)] := by
  decide

/-- Claim C3, on two partial tables that both hold the key a (the tables of two chunks that
start with the lines a;1.0 and a;2.0): the merge loop keeps the aggregate of the table that
arrives first, so the two arrival orders give different final tables. -/
theorem mergeLoop_depends_on_arrival_order :
    processChunk ratOps (bytesOf "a;1.0\nz;0") = .ok [(bytesOf "a", ⟨1, 1, 1, 1⟩)] ∧
    processChunk ratOps (bytesOf "a;2.0\nz;0") = .ok [(bytesOf "a", ⟨2, 2, 2, 1⟩)] ∧
    mergeLoop ratOps [[(bytesOf "a", ⟨1, 1, 1, 1⟩)], [(bytesOf "a", ⟨2, 2, 2, 1⟩)]] =
      [(bytesOf "a", ⟨1, 1, 1, 1⟩)] ∧
    mergeLoop ratOps [[(bytesOf "a", ⟨2, 2, 2, 1⟩)], [(bytesOf "a", ⟨1, 1, 1, 1⟩)]] =
      [(bytesOf "a", ⟨2, 2, 2, 1⟩)] := by
  decide

/-- Claim C4, on files whose last line has no line terminator: for the file x;5.5 the only block
holds no line terminator and the run ends in the slice panic; for the file with the lines
a;1.0 and x;5.5 the leftover is never sent and the final table is empty. -/
theorem doStuff_unterminated_last_line :
    doStuff ratOps (bytesOf "x;5.5") = .error .sliceOutOfRange ∧
    splitter chunkSize (bytesOf "a;1.0\nx;5.5") = .ok [bytesOf "a;1.0"] ∧
    finalTable ratOps chunkSize (bytesOf "a;1.0\nx;5.5") = .ok [] := by
  decide

/-- Claim C5, on the file of scenario 5: the value field does not parse, but the chunk reaches
processChunk without its line terminator, the field is never parsed, and the run ends normally
with the empty block. -/
theorem doStuff_scenario5_prints_block :
    parseDecimal (bytesOf "not-a-number") = none ∧
    splitter chunkSize (bytesOf "a;not-a-number\n") = .ok [bytesOf "a;not-a-number"] ∧
    doStuff ratOps (bytesOf "a;not-a-number\n") =
      .ok [⟨.stderr, bytesOf "\x7b\n"⟩, ⟨.stderr, bytesOf "\x7d\n"⟩] := by
  decide

/-! ## Malformed lines in `processChunk` -/

/-- Claim C6 as stated fails on the chunk a;\n: the empty value field does not parse, and
processChunk delivers the empty table without error. -/
theorem processChunk_empty_value_skipped :
    ratOps.parseFloat [] = none ∧ processChunk ratOps (bytesOf "a;\n") = .ok [] := by
  decide

/-- Claim C6, amended: a chunk that contains a line whose value field, the bytes between a
field delimiter and the next line terminator, is not empty and does not parse ends
processChunk in a fatal error, so that no partial table is delivered; a line terminator that
directly follows a field delimiter (an empty value field) is skipped. -/
theorem processChunk_bad_value_fatal {F : Type} (M : Float32Ops F) (pre value post : List Nat)
    (hne : value ≠ []) (hnl : 10 ∉ value) (hsemi : 59 ∉ value)
    (hparse : M.parseFloat value = none) :
    (∃ s, processChunk M (pre ++ [59] ++ value ++ [10] ++ post) = .error (.fatal s)) ∧
    processChunk M (pre ++ [59] ++ [10] ++ post) = processChunk M (pre ++ [59] ++ post) := by
  constructor
  · have hshape : pre ++ [59] ++ value ++ [10] ++ post = (pre ++ [59]) ++ (value ++ [10] ++ post) := by
      simp
    obtain ⟨s, hs⟩ := scanLoop_after_bad_field M ⟨[], [], []⟩ (pre ++ [59]) value post
      (fun st' h => scanLoop_semi_builder M _ st' pre h) hne hnl hsemi hparse
    exact ⟨s, by rw [hshape]; exact processChunk_error_of_scanLoop M _ _ hs⟩
  · have h1 : pre ++ [59] ++ [10] ++ post = (pre ++ [59]) ++ (10 :: post) := by simp
    have hscan : scanLoop M ⟨[], [], []⟩ ((pre ++ [59]) ++ (10 :: post)) =
        scanLoop M ⟨[], [], []⟩ ((pre ++ [59]) ++ post) := by
      rw [scanLoop_append M _ (pre ++ [59]) (10 :: post), scanLoop_append M _ (pre ++ [59]) post]
      cases hp : scanLoop M ⟨[], [], []⟩ (pre ++ [59]) with
      | error e => rfl
      | ok st1 => exact scanLoop_skip_newline M st1 post (scanLoop_semi_builder M _ st1 pre hp)
    unfold processChunk
    rw [h1, hscan]

/-- The amended claim C6 on a chunk of three lines whose second value field is the letter x. -/
theorem processChunk_bad_value_fatal_witness :
    (bytesOf "x" ≠ [] ∧ 10 ∉ bytesOf "x" ∧ 59 ∉ bytesOf "x" ∧
      ratOps.parseFloat (bytesOf "x") = none) ∧
    ((∃ s, processChunk ratOps
        (bytesOf "a;1.0\nb" ++ [59] ++ bytesOf "x" ++ [10] ++ bytesOf "c;2.0\n") =
          .error (.fatal s)) ∧
      processChunk ratOps (bytesOf "a;1.0\nb" ++ [59] ++ [10] ++ bytesOf "c;2.0\n") =
        processChunk ratOps (bytesOf "a;1.0\nb" ++ [59] ++ bytesOf "c;2.0\n")) :=
  ⟨by decide,
    processChunk_bad_value_fatal ratOps (bytesOf "a;1.0\nb") (bytesOf "x") (bytesOf "c;2.0\n")
      (by decide) (by decide) (by decide) (by decide)⟩

/-- Claim C7 as stated fails on the chunk 1.0\n: the line has no field delimiter, and
processChunk reports no error and folds it as an observation of the empty key. -/
theorem processChunk_line_without_delimiter_folded :
    59 ∉ bytesOf "1.0" ∧ processChunk ratOps (bytesOf "1.0\n") = .ok [([], ⟨1, 1, 1, 1⟩)] := by
  decide

/-- Claim C7, amended: a non-empty line without a field delimiter, starting the chunk or
following a line terminator, is taken whole as the value field.  If it does not parse,
processChunk ends in a fatal error.  If it parses, the line raises no error: it is an
observation of the key held by the variable city at that point (the key of the last field
delimiter seen in the chunk, the empty key if there was none), and it seeds the aggregate of
that key when the table has none. -/
theorem processChunk_line_without_delimiter {F : Type} (M : Float32Ops F)
    (pre line post : List Nat) (hpre : pre = [] ∨ ∃ p, pre = p ++ [10])
    (hne : line ≠ []) (hnl : 10 ∉ line) (hsemi : 59 ∉ line) :
    (M.parseFloat line = none →
      ∃ s, processChunk M (pre ++ line ++ [10] ++ post) = .error (.fatal s)) ∧
    (∀ st temp, scanLoop M ⟨[], [], []⟩ pre = .ok st → M.parseFloat line = some temp →
      ∃ mp, processChunk M (pre ++ line ++ [10]) = .ok mp ∧
        (lookup st.city st.mp = none → mp = st.mp ++ [(st.city, ⟨temp, temp, temp, 1⟩)])) := by
  have hbuilder : ∀ st', scanLoop M ⟨[], [], []⟩ pre = .ok st' → st'.builder = [] := by
    intro st' h
    rcases hpre with rfl | ⟨p, rfl⟩
    · simp only [scanLoop] at h
      injection h with h
      rw [← h]
    · exact scanLoop_newline_builder M _ st' p h
  constructor
  · intro hparse
    have hshape : pre ++ line ++ [10] ++ post = pre ++ (line ++ [10] ++ post) := by simp
    obtain ⟨s, hs⟩ := scanLoop_after_bad_field M ⟨[], [], []⟩ pre line post hbuilder hne hnl
      hsemi hparse
    exact ⟨s, by rw [hshape]; exact processChunk_error_of_scanLoop M _ _ hs⟩
  · intro st temp hst hparse
    have hscan : scanLoop M ⟨[], [], []⟩ (pre ++ line ++ [10]) =
        .ok ⟨foldObservation M st.mp st.city temp, st.city, []⟩ := by
      rw [List.append_assoc, scanLoop_append, hst]
      exact scanLoop_good_field M st line temp (hbuilder st hst) hne hnl hsemi hparse
    refine ⟨foldObservation M st.mp st.city temp, processChunk_ok_of_scanLoop M _ _ hscan, ?_⟩
    intro hnone
    simp [foldObservation, hnone]

/-- The amended claim C7 on two chunks: the line zz after the line a;1.0 is fatal, and the
line 2.5 after the line a; (empty value, skipped) is folded as an observation of the key a. -/
theorem processChunk_line_without_delimiter_witness :
    (∃ s, processChunk ratOps (bytesOf "a;1.0\n" ++ bytesOf "zz" ++ [10] ++ bytesOf "b;2.0\n") =
      .error (.fatal s)) ∧
    (∃ mp, processChunk ratOps (bytesOf "a;\n" ++ bytesOf "2.5" ++ [10]) = .ok mp ∧
      mp = [(bytesOf "a", ⟨mkRat 5 2, mkRat 5 2, mkRat 5 2, 1⟩)]) :=
  ⟨(processChunk_line_without_delimiter ratOps (bytesOf "a;1.0\n") (bytesOf "zz")
      (bytesOf "b;2.0\n") (Or.inr ⟨bytesOf "a;1.0", by decide⟩) (by decide) (by decide)
      (by decide)).1 (by decide),
    (((processChunk_line_without_delimiter ratOps (bytesOf "a;\n") (bytesOf "2.5") []
      (Or.inr ⟨bytesOf "a;", by decide⟩) (by decide) (by decide) (by decide)).2
      ⟨[], bytesOf "a", []⟩ (mkRat 5 2) (by decide) (by decide)).imp
      (fun _ h => ⟨h.1, h.2 (by decide)⟩))⟩


/-! ## The printed block -/

/-- Claim C8, on every table and on the table with the one key a: the slice of cities starts
with as many empty strings as the table has keys, so printStuff writes two lines per key
between the braces.  For the one key a it writes a line for the empty key, which is not in the
table and is rendered from the zero value of stationData, and then the line of a. -/
theorem printStuff_writes_two_lines_per_key {F : Type} (M : Float32Ops F) :
    (∀ mp : Table F, (printStuff M mp).length = 2 * mp.length + 2) ∧
    (∀ d : stationData F,
      printStuff M [(bytesOf "a", d)] =
        [⟨.stderr, bytesOf "\x7b\n"⟩, cityLine M [(bytesOf "a", d)] [],
          cityLine M [(bytesOf "a", d)] (bytesOf "a"), ⟨.stderr, bytesOf "\x7d\n"⟩] ∧
      lookup [] [(bytesOf "a", d)] = none ∧
      mapRead M [(bytesOf "a", d)] [] = ⟨M.zero, M.zero, M.zero, 0⟩) := by
  constructor
  · intro mp
    simp only [printStuff, List.length_append, List.length_map, sortedCities_length,
      List.length_singleton]
    omega
  · intro d
    exact ⟨rfl, rfl, rfl⟩

/-- Claim C9: the lines printStuff writes between the two braces are the lines of the sorted
slice of cities, in its order; each line starts with its key and the equals sign, and every
key is less than or equal to each key after it in the lexicographic order of bytes. -/
theorem printStuff_lines_ascending {F : Type} (M : Float32Ops F) (mp : Table F) :
    printStuff M mp =
      [⟨.stderr, bytesOf "\x7b\n"⟩] ++ (sortedCities mp).map (cityLine M mp)
        ++ [⟨.stderr, bytesOf "\x7d\n"⟩] ∧
    (∀ city, ∃ values, (cityLine M mp city).text = city ++ [61] ++ values) ∧
    List.Pairwise (fun a b => a = b ∨ List.Lex (fun x y : Nat => x < y) a b)
      (sortedCities mp) := by
  refine ⟨rfl, ?_, ?_⟩
  · intro city
    refine ⟨M.fmt1 (mapRead M mp city).min ++ [47]
      ++ M.fmt1 (M.div (mapRead M mp city).sum (M.ofInt (mapRead M mp city).cnt)) ++ [47]
      ++ M.fmt1 (mapRead M mp city).max ++ [10], ?_⟩
    simp only [cityLine, List.append_assoc]
  · exact (sortStrings_sorted _).imp (fun h => (keyLE_iff_lex _ _).mp h)

/-- Claim C10: on the empty file the first read reports the end of the file, so the splitter
sends no chunk; the final table has no key; printStuff writes the two braces only, and the
bytes written are the block of an opening brace line and a closing brace line. -/
theorem doStuff_empty_file {F : Type} (M : Float32Ops F) :
    splitter chunkSize [] = .ok [] ∧
    finalTable M chunkSize [] = .ok [] ∧
    doStuff M [] = .ok (printStuff M []) ∧
    rendered (printStuff M []) = bytesOf "\x7b\n\x7d\n" :=
  ⟨rfl, rfl, rfl, rfl⟩

/-! ## One iteration of the splitter -/

theorem splitLoop_succ (fuel : Nat) (st : SplitState) :
    splitLoop (fuel + 1) st =
      match splitStep st with
      | .error e => .error e
      | .ok none => .ok st.sent
      | .ok (some st') => splitLoop fuel st' := by
  rw [splitLoop]
  unfold splitStep
  simp only []
  split_ifs <;> rfl

theorem lastIndexFrom_spec (c : Nat) (xs : List Nat) (i best : Int) :
    (lastIndexFrom c xs i best = best ∧ c ∉ xs) ∨
      (i ≤ lastIndexFrom c xs i best ∧ lastIndexFrom c xs i best < i + xs.length ∧ c ∈ xs) := by
  induction xs generalizing i best with
  | nil => left; simp [lastIndexFrom]
  | cons x xs ih =>
    simp only [lastIndexFrom, List.length_cons, List.mem_cons]
    rcases ih (i + 1) (if x = c then i else best) with ⟨h1, h2⟩ | ⟨h1, h2, h3⟩
    · by_cases hx : x = c
      · right
        rw [h1, if_pos hx]
        refine ⟨le_refl _, ?_, Or.inl hx.symm⟩
        push_cast
        omega
      · left
        rw [h1, if_neg hx]
        exact ⟨rfl, fun h => h.elim (fun h => hx h.symm) h2⟩
    · right
      refine ⟨by omega, ?_, Or.inr h3⟩
      push_cast
      omega

/-- The index returned by `bytes.LastIndex` is `-1` when the byte does not occur, and an index
of the slice when it does. -/
theorem lastIndex_spec (b : List Nat) (c : Nat) :
    (lastIndex b c = -1 ∧ c ∉ b) ∨ (0 ≤ lastIndex b c ∧ lastIndex b c < b.length ∧ c ∈ b) := by
  rcases lastIndexFrom_spec c b 0 (-1) with h | ⟨h1, h2, h3⟩
  · exact Or.inl h
  · exact Or.inr ⟨h1, by simpa using h2, h3⟩

/-! ## The pipeline on further inputs -/

/-- Claim C11, on every table: the two braces are written on standard error by the builtin
print, and only the lines of the cities are written on standard output by fmt.Printf; for the
empty table nothing at all is written on standard output. -/
theorem printStuff_braces_on_stderr {F : Type} (M : Float32Ops F) (mp : Table F) :
    written .stderr (printStuff M mp) = bytesOf "\x7b\n\x7d\n" ∧
    written .stdout (printStuff M mp) =
      ((sortedCities mp).map (fun city => (cityLine M mp city).text)).flatten ∧
    written .stdout (printStuff M ([] : Table F)) = [] := by
  have hout : ∀ cities : List Key,
      (cities.map (cityLine M mp)).filter (fun w => decide (w.stream = OutStream.stdout)) =
        cities.map (cityLine M mp) := by
    intro cities
    rw [List.filter_eq_self]
    intro w hw
    obtain ⟨city, _, rfl⟩ := List.mem_map.mp hw
    simp [cityLine]
  have herr : ∀ cities : List Key,
      (cities.map (cityLine M mp)).filter (fun w => decide (w.stream = OutStream.stderr)) =
        [] := by
    intro cities
    rw [List.filter_eq_nil_iff]
    intro w hw
    obtain ⟨city, _, rfl⟩ := List.mem_map.mp hw
    simp [cityLine]
  refine ⟨?_, ?_, rfl⟩
  · simp only [written, printStuff, List.filter_append, herr]
    rfl
  · simp only [written, printStuff, List.filter_append, hout]
    simp [List.filter]
    rfl

/-- Claim C13, on a chunk with two lines of the key a: the second observation is computed on
the local copy of the aggregate and not stored, so the partial table holds a with min 1,
max 1, sum 1 and count 1 (not min 1, max 3, sum 4, count 2); the same holds for the chunk
as the splitter would send it, followed by an unterminated line. -/
theorem processChunk_second_observation_dropped :
    processChunk ratOps (bytesOf "a;1.0\na;3.0\n") = .ok [(bytesOf "a", ⟨1, 1, 1, 1⟩)] ∧
    processChunk ratOps (bytesOf "a;1.0\na;3.0\nz;0") = .ok [(bytesOf "a", ⟨1, 1, 1, 1⟩)] ∧
    processChunk ratOps (bytesOf "a;3.0\na;1.0\n") = .ok [(bytesOf "a", ⟨3, 3, 3, 1⟩)] := by
  decide

/-- Claim C14, on the final table with a at 5 and the incoming table with a at 2 and b at 7:
after the merge step a still has min 5, max 5, sum 5 and count 1 (not min 2, max 5, sum 7,
count 2); the absent key b is inserted unchanged. -/
theorem mergeTable_present_key_unchanged :
    mergeTable ratOps [(bytesOf "a", ⟨5, 5, 5, 1⟩)]
        [(bytesOf "a", ⟨2, 2, 2, 1⟩), (bytesOf "b", ⟨7, 7, 7, 1⟩)] =
      [(bytesOf "a", ⟨5, 5, 5, 1⟩), (bytesOf "b", ⟨7, 7, 7, 1⟩)] := by
  decide

/-- Claim C15, on a file of two terminated lines read as one block: the chunk sent stops
before the last line terminator of the block, so it does not end with a line terminator and
its last line is partial. -/
theorem splitter_chunk_without_last_terminator :
    lastIndex (bytesOf "k;1.0\nm;2.0\n") 10 = 11 ∧
    splitter chunkSize (bytesOf "k;1.0\nm;2.0\n") = .ok [bytesOf "k;1.0\nm;2.0"] ∧
    (bytesOf "k;1.0\nm;2.0").getLast? = some 48 := by
  decide

/-- Claim C16, on a block that ends with the two bytes b; of a partial line: the leftover
saved is two zero bytes followed by b; (four bytes, not two), and with blocks of 8 bytes the
second chunk sent starts with those zero bytes, which are not bytes of the file. -/
theorem splitter_leftover_zero_padded :
    splitStep ⟨bytesOf "a;1.0\nb;", chunkSize, [], []⟩ =
      .ok (some ⟨[], 8, [0, 0, 98, 59], [bytesOf "a;1.0"]⟩) ∧
    splitter 8 (bytesOf "a;1.0\nb;2.0\nc;3.0\nd;4.0\n") =
      .ok [bytesOf "a;1.0", [0, 0] ++ bytesOf "b;2.0",
        [0, 0, 0, 0] ++ bytesOf "c;3.0\nd;4.0"] := by
  decide

/-- Claim C18, on a block without a line terminator: bytes.LastIndex returns -1 and the slice
expression readChunk[:sendUpto] is out of range, which ends the run in a panic. -/
theorem splitStep_block_without_terminator :
    lastIndex (bytesOf "k;1") 10 = -1 ∧
    splitStep ⟨bytesOf "k;1", chunkSize, [], []⟩ = .error .sliceOutOfRange ∧
    splitter chunkSize (bytesOf "k;1") = .error .sliceOutOfRange := by
  decide

/-! ## Lookups in the tables built by the loops -/

theorem lookup_append {F : Type} (k : Key) (a b : Table F) :
    lookup k (a ++ b) = (lookup k a).or (lookup k b) := by
  induction a with
  | nil => rfl
  | cons x xs ih =>
    obtain ⟨c, d⟩ := x
    simp only [List.cons_append, lookup]
    split_ifs
    · rfl
    · exact ih

theorem lookup_eq_none_iff {F : Type} (k : Key) (t : Table F) :
    lookup k t = none ↔ k ∉ t.map Prod.fst := by
  induction t with
  | nil => simp [lookup]
  | cons x xs ih =>
    obtain ⟨c, d⟩ := x
    simp only [lookup, List.map_cons, List.mem_cons]
    split_ifs with h
    · simp [h]
    · rw [ih]
      constructor
      · intro h1 h2
        rcases h2 with h2 | h2
        · exact h h2.symm
        · exact h1 h2
      · intro h1 h2
        exact h1 (Or.inr h2)

theorem mem_of_lookup {F : Type} (k : Key) (d : stationData F) (t : Table F)
    (h : lookup k t = some d) : (k, d) ∈ t := by
  induction t with
  | nil => simp [lookup] at h
  | cons x xs ih =>
    obtain ⟨c, e⟩ := x
    simp only [lookup] at h
    split_ifs at h with hc
    · injection h with h
      subst hc
      subst h
      exact List.mem_cons_self _ _
    · exact List.mem_cons_of_mem _ (ih h)

theorem lookup_of_mem {F : Type} (k : Key) (d : stationData F) (t : Table F)
    (hnodup : (t.map Prod.fst).Nodup) (h : (k, d) ∈ t) : lookup k t = some d := by
  induction t with
  | nil => simp at h
  | cons x xs ih =>
    obtain ⟨c, e⟩ := x
    simp only [List.map_cons, List.nodup_cons] at hnodup
    simp only [lookup]
    rcases List.mem_cons.mp h with h | h
    · injection h with h1 h2
      simp [h1, h2]
    · have hne : c ≠ k := by
        intro hc
        apply hnodup.1
        rw [hc]
        exact List.mem_map.mpr ⟨(k, d), h, rfl⟩
      rw [if_neg hne]
      exact ih hnodup.2 h

theorem lookup_foldObservation {F : Type} (M : Float32Ops F) (mp : Table F) (city : Key)
    (temp : F) (k : Key) :
    lookup k (foldObservation M mp city temp) =
      (lookup k mp).or (if city = k then some ⟨temp, temp, temp, 1⟩ else none) := by
  unfold foldObservation
  cases hc : lookup city mp with
  | none =>
    simp only [lookup_append, lookup]
  | some station =>
    simp only []
    by_cases hk : city = k
    · rw [if_pos hk, ← hk, hc]
      rfl
    · rw [if_neg hk]
      cases lookup k mp <;> rfl

theorem lookup_mergeEntry {F : Type} (M : Float32Ops F) (mp : Table F) (city : Key)
    (info : stationData F) (k : Key) :
    lookup k (mergeEntry M mp city info) =
      (lookup k mp).or (if city = k then some info else none) := by
  unfold mergeEntry
  cases hc : lookup city mp with
  | none =>
    simp only [lookup_append, lookup]
  | some station =>
    simp only []
    by_cases hk : city = k
    · rw [if_pos hk, ← hk, hc]
      rfl
    · rw [if_neg hk]
      cases lookup k mp <;> rfl

theorem lookup_mergeTable {F : Type} (M : Float32Ops F) (mp smallMap : Table F) (k : Key) :
    lookup k (mergeTable M mp smallMap) = (lookup k mp).or (lookup k smallMap) := by
  unfold mergeTable
  induction smallMap generalizing mp with
  | nil =>
    simp only [List.foldl_nil, lookup]
    cases lookup k mp <;> rfl
  | cons x xs ih =>
    obtain ⟨c, d⟩ := x
    simp only [List.foldl_cons, ih, lookup_mergeEntry, lookup]
    cases lookup k mp with
    | some s => rfl
    | none =>
      by_cases hk : c = k
      · simp [hk, Option.or]
      · simp [hk, Option.or]

theorem lookup_foldl_mergeTable {F : Type} (M : Float32Ops F) (mp : Table F)
    (maps : List (Table F)) (k : Key) :
    lookup k (maps.foldl (mergeTable M) mp) = (lookup k mp).or (maps.findSome? (lookup k)) := by
  induction maps generalizing mp with
  | nil =>
    simp only [List.foldl_nil, List.findSome?_nil]
    cases lookup k mp <;> rfl
  | cons t ts ih =>
    simp only [List.foldl_cons, ih, lookup_mergeTable, List.findSome?_cons]
    cases lookup k mp with
    | some s => rfl
    | none =>
      cases lookup k t with
      | some s => rfl
      | none => rfl

/-- The aggregate of a key in the final table is its aggregate in the first partial table
that holds the key. -/
theorem lookup_mergeLoop {F : Type} (M : Float32Ops F) (maps : List (Table F)) (k : Key) :
    lookup k (mergeLoop M maps) = maps.findSome? (lookup k) := by
  unfold mergeLoop
  rw [lookup_foldl_mergeTable]
  rfl

/-! ## The observations of a chunk -/

theorem processByte_mp {F : Type} (M : Float32Ops F) (st st' : ScanState F) (ch : Nat)
    (h : processByte M st ch = .ok st') :
    st'.mp = match observed M st ch with
      | some o => foldObservation M st.mp o.1 o.2
      | none => st.mp := by
  unfold processByte at h
  unfold observed
  by_cases h10 : ch = 10
  · by_cases hb : st.builder.length ≠ 0
    · rw [if_pos h10, if_pos hb] at h
      rw [if_pos ⟨h10, hb⟩]
      cases hp : M.parseFloat st.builder with
      | none => simp [hp] at h
      | some temp =>
        simp only [hp] at h
        injection h with h
        rw [← h]
    · rw [if_pos h10, if_neg hb] at h
      rw [if_neg (fun hc => hb hc.2)]
      injection h with h
      rw [← h]
  · rw [if_neg h10] at h
    rw [if_neg (fun hc => h10 hc.1)]
    split_ifs at h <;> (injection h with h; rw [← h])

theorem lookup_scanLoop {F : Type} (M : Float32Ops F) (st st' : ScanState F) (buf : List Nat)
    (k : Key) (h : scanLoop M st buf = .ok st') :
    lookup k st'.mp =
      (lookup k st.mp).or
        ((firstObservation k (observations M st buf)).map (fun t => ⟨t, t, t, 1⟩)) := by
  induction buf generalizing st with
  | nil =>
    simp only [scanLoop] at h
    injection h with h
    rw [← h]
    simp only [observations, firstObservation, Option.map_none']
    cases lookup k st.mp <;> rfl
  | cons ch rest ih =>
    simp only [scanLoop] at h
    cases hb : processByte M st ch with
    | error e => simp [hb] at h
    | ok st1 =>
      simp only [hb] at h
      rw [ih st1 h, processByte_mp M st st1 ch hb]
      simp only [observations, hb]
      cases observed M st ch with
      | none => rfl
      | some o =>
        obtain ⟨c, t⟩ := o
        simp only [Option.toList, List.singleton_append, firstObservation,
          lookup_foldObservation]
        cases lookup k st.mp with
        | some s => rfl
        | none =>
          by_cases hk : c = k
          · simp [hk, Option.or]
          · simp [hk, Option.or]

/-- The aggregate of a key in the partial table of a chunk is seeded with the value of the
first observation of the key in the chunk. -/
theorem lookup_processChunk {F : Type} (M : Float32Ops F) (buf : List Nat) (t : Table F)
    (k : Key) (h : processChunk M buf = .ok t) :
    lookup k t =
      (firstObservation k (observations M ⟨[], [], []⟩ buf)).map (fun x => ⟨x, x, x, 1⟩) := by
  unfold processChunk at h
  cases hs : scanLoop M ⟨[], [], []⟩ buf with
  | error e => simp [hs] at h
  | ok st' =>
    simp only [hs] at h
    injection h with h
    rw [← h, lookup_scanLoop M _ st' buf k hs]
    rfl

theorem findSome_lookup_processAll {F : Type} (M : Float32Ops F) (chunks : List (List Nat))
    (maps : List (Table F)) (k : Key) (h : processAll M chunks = .ok maps) :
    maps.findSome? (lookup k) =
      (firstObservationIn M k chunks).map (fun x => ⟨x, x, x, 1⟩) := by
  induction chunks generalizing maps with
  | nil =>
    simp only [processAll] at h
    injection h with h
    rw [← h]
    rfl
  | cons c cs ih =>
    simp only [processAll] at h
    cases hc : processChunk M c with
    | error e => simp [hc] at h
    | ok t =>
      simp only [hc] at h
      cases hcs : processAll M cs with
      | error e => simp [hcs] at h
      | ok ms =>
        simp only [hcs] at h
        injection h with h
        rw [← h]
        simp only [firstObservationIn, List.findSome?_cons, lookup_processChunk M c t k hc]
        cases firstObservation k (observations M ⟨[], [], []⟩ c) with
        | some x => rfl
        | none => exact ih ms hcs

/-! ## The keys of the tables are distinct -/

theorem nodup_append_entry {F : Type} (mp : Table F) (city : Key) (d : stationData F)
    (hnodup : (mp.map Prod.fst).Nodup) (hnone : lookup city mp = none) :
    ((mp ++ [(city, d)]).map Prod.fst).Nodup := by
  rw [List.map_append, List.nodup_append]
  refine ⟨hnodup, by simp, ?_⟩
  intro a ha hb
  simp only [List.map_cons, List.map_nil, List.mem_singleton] at hb
  subst hb
  exact (lookup_eq_none_iff a mp).mp hnone ha

theorem nodup_foldObservation {F : Type} (M : Float32Ops F) (mp : Table F) (city : Key)
    (temp : F) (hnodup : (mp.map Prod.fst).Nodup) :
    ((foldObservation M mp city temp).map Prod.fst).Nodup := by
  unfold foldObservation
  cases hc : lookup city mp with
  | none => exact nodup_append_entry mp city _ hnodup hc
  | some station => exact hnodup

theorem nodup_mergeEntry {F : Type} (M : Float32Ops F) (mp : Table F) (city : Key)
    (info : stationData F) (hnodup : (mp.map Prod.fst).Nodup) :
    ((mergeEntry M mp city info).map Prod.fst).Nodup := by
  unfold mergeEntry
  cases hc : lookup city mp with
  | none => exact nodup_append_entry mp city _ hnodup hc
  | some station => exact hnodup

theorem nodup_mergeTable {F : Type} (M : Float32Ops F) (mp smallMap : Table F)
    (hnodup : (mp.map Prod.fst).Nodup) : ((mergeTable M mp smallMap).map Prod.fst).Nodup := by
  unfold mergeTable
  induction smallMap generalizing mp with
  | nil => exact hnodup
  | cons x xs ih => exact ih _ (nodup_mergeEntry M mp x.1 x.2 hnodup)

theorem nodup_foldl_mergeTable {F : Type} (M : Float32Ops F) (mp : Table F)
    (maps : List (Table F)) (hnodup : (mp.map Prod.fst).Nodup) :
    ((maps.foldl (mergeTable M) mp).map Prod.fst).Nodup := by
  induction maps generalizing mp with
  | nil => exact hnodup
  | cons t ts ih => exact ih _ (nodup_mergeTable M mp t hnodup)

/-- The final table has distinct keys, as a Go map has. -/
theorem nodup_mergeLoop {F : Type} (M : Float32Ops F) (maps : List (Table F)) :
    ((mergeLoop M maps).map Prod.fst).Nodup :=
  nodup_foldl_mergeTable M [] maps List.nodup_nil

theorem nodup_scanLoop {F : Type} (M : Float32Ops F) (st st' : ScanState F) (buf : List Nat)
    (hnodup : (st.mp.map Prod.fst).Nodup) (h : scanLoop M st buf = .ok st') :
    (st'.mp.map Prod.fst).Nodup := by
  induction buf generalizing st with
  | nil =>
    simp only [scanLoop] at h
    injection h with h
    rw [← h]
    exact hnodup
  | cons ch rest ih =>
    simp only [scanLoop] at h
    cases hb : processByte M st ch with
    | error e => simp [hb] at h
    | ok st1 =>
      simp only [hb] at h
      apply ih st1 _ h
      rw [processByte_mp M st st1 ch hb]
      cases observed M st ch with
      | none => exact hnodup
      | some o => exact nodup_foldObservation M st.mp o.1 o.2 hnodup

/-- The partial table of a chunk has distinct keys. -/
theorem nodup_processChunk {F : Type} (M : Float32Ops F) (buf : List Nat) (t : Table F)
    (h : processChunk M buf = .ok t) : (t.map Prod.fst).Nodup := by
  unfold processChunk at h
  cases hs : scanLoop M ⟨[], [], []⟩ buf with
  | error e => simp [hs] at h
  | ok st' =>
    simp only [hs] at h
    injection h with h
    rw [← h]
    exact nodup_scanLoop M ⟨[], [], []⟩ st' buf List.nodup_nil hs

/-! ## Every stored aggregate is a seeded one -/

theorem seeded_mk {F : Type} (temp : F) : Seeded (⟨temp, temp, temp, 1⟩ : stationData F) :=
  ⟨rfl, rfl, rfl⟩

theorem seeded_processChunk {F : Type} (M : Float32Ops F) (buf : List Nat) (t : Table F)
    (h : processChunk M buf = .ok t) (k : Key) (d : stationData F) (hmem : (k, d) ∈ t) :
    Seeded d := by
  have hl := lookup_of_mem k d t (nodup_processChunk M buf t h) hmem
  rw [lookup_processChunk M buf t k h] at hl
  cases hf : firstObservation k (observations M ⟨[], [], []⟩ buf) with
  | none => simp [hf] at hl
  | some x =>
    simp only [hf, Option.map_some'] at hl
    injection hl with hl
    rw [← hl]
    exact seeded_mk x

theorem seeded_mergeLoop {F : Type} (M : Float32Ops F) (maps : List (Table F))
    (hmaps : ∀ t ∈ maps, ∀ k d, (k, d) ∈ t → Seeded d) (k : Key) (d : stationData F)
    (hmem : (k, d) ∈ mergeLoop M maps) : Seeded d := by
  have hl := lookup_of_mem k d _ (nodup_mergeLoop M maps) hmem
  rw [lookup_mergeLoop] at hl
  obtain ⟨t, ht, hkt⟩ := List.exists_of_findSome?_eq_some hl
  exact hmaps t ht k d (mem_of_lookup k d t hkt)

/-! ## The enumeration order of a map -/

theorem keyLE_antisymm (a b : Key) (hab : keyLE a b = true) (hba : keyLE b a = true) :
    a = b := by
  induction a generalizing b with
  | nil =>
    cases b with
    | nil => rfl
    | cons y ys => simp [keyLE] at hba
  | cons x xs ih =>
    cases b with
    | nil => simp [keyLE] at hab
    | cons y ys =>
      simp only [keyLE, Bool.or_eq_true, Bool.and_eq_true, decide_eq_true_eq, beq_iff_eq]
        at hab hba
      rcases hab with h1 | ⟨h1, h1'⟩
      · rcases hba with h2 | ⟨h2, _⟩
        · omega
        · omega
      · rcases hba with h2 | ⟨_, h2'⟩
        · omega
        · rw [h1, ih ys h1' h2']

theorem sortStrings_eq_of_perm (as bs : List Key) (h : as.Perm bs) :
    sortStrings as = sortStrings bs :=
  @List.eq_of_perm_of_sorted Key (fun a b => keyLE a b = true)
    ⟨fun a b => keyLE_antisymm a b⟩ _ _
    (((sortStrings_perm as).trans h).trans (sortStrings_perm bs).symm)
    (sortStrings_sorted as) (sortStrings_sorted bs)

theorem lookup_perm {F : Type} (k : Key) (mp mp' : Table F) (hperm : mp.Perm mp')
    (hnodup : (mp.map Prod.fst).Nodup) : lookup k mp = lookup k mp' := by
  induction hperm with
  | nil => rfl
  | cons x _ ih =>
    obtain ⟨c, d⟩ := x
    simp only [List.map_cons, List.nodup_cons] at hnodup
    simp only [lookup, ih hnodup.2]
  | swap x y l =>
    obtain ⟨c, d⟩ := x
    obtain ⟨c', d'⟩ := y
    simp only [List.map_cons, List.nodup_cons, List.mem_cons, not_or] at hnodup
    simp only [lookup]
    by_cases h1 : c = k
    · by_cases h2 : c' = k
      · exact absurd (h2.trans h1.symm) hnodup.1.1
      · simp [h1, h2]
    · by_cases h2 : c' = k
      · simp [h1, h2]
      · simp [h1, h2]
  | trans h12 _ ih1 ih2 =>
    exact (ih1 hnodup).trans (ih2 ((h12.map Prod.fst).nodup_iff.mp hnodup))

theorem sortedCities_perm {F : Type} (mp mp' : Table F) (hperm : mp.Perm mp') :
    sortedCities mp = sortedCities mp' := by
  unfold sortedCities
  apply sortStrings_eq_of_perm
  rw [hperm.length_eq]
  exact List.Perm.append_left _ (hperm.map Prod.fst)

/-- Claim C12: two enumerations of one map (two lists of its entries, one a permutation of
the other, with distinct keys) give the same writes, hence the same output string: the keys
are sorted before they are printed, and the lookups do not depend on the enumeration. -/
theorem printStuff_enumeration_order {F : Type} (M : Float32Ops F) (mp mp' : Table F)
    (hperm : mp.Perm mp') (hnodup : (mp.map Prod.fst).Nodup) :
    printStuff M mp = printStuff M mp' ∧
    rendered (printStuff M mp) = rendered (printStuff M mp') := by
  have hline : ∀ city, cityLine M mp city = cityLine M mp' city := by
    intro city
    simp only [cityLine, mapRead, lookup_perm city mp mp' hperm hnodup]
  have hprint : printStuff M mp = printStuff M mp' := by
    unfold printStuff
    rw [sortedCities_perm mp mp' hperm]
    congr 2
    exact List.map_congr_left (fun city _ => hline city)
  exact ⟨hprint, by rw [hprint]⟩

/-- The claim C12 on a table of two keys enumerated in the two possible orders. -/
theorem printStuff_enumeration_order_witness :
    (List.Perm [(bytesOf "b", (⟨2, 2, 2, 1⟩ : stationData ℚ)), (bytesOf "a", ⟨1, 1, 1, 1⟩)]
        [(bytesOf "a", ⟨1, 1, 1, 1⟩), (bytesOf "b", ⟨2, 2, 2, 1⟩)] ∧
      ([(bytesOf "b", (⟨2, 2, 2, 1⟩ : stationData ℚ)), (bytesOf "a", ⟨1, 1, 1, 1⟩)].map
        Prod.fst).Nodup) ∧
    (printStuff ratOps [(bytesOf "b", ⟨2, 2, 2, 1⟩), (bytesOf "a", ⟨1, 1, 1, 1⟩)] =
        printStuff ratOps [(bytesOf "a", ⟨1, 1, 1, 1⟩), (bytesOf "b", ⟨2, 2, 2, 1⟩)] ∧
      rendered (printStuff ratOps [(bytesOf "b", ⟨2, 2, 2, 1⟩), (bytesOf "a", ⟨1, 1, 1, 1⟩)]) =
        rendered (printStuff ratOps [(bytesOf "a", ⟨1, 1, 1, 1⟩), (bytesOf "b", ⟨2, 2, 2, 1⟩)])) :=
  ⟨⟨List.Perm.swap _ _ _, by decide⟩,
    printStuff_enumeration_order ratOps _ _ (List.Perm.swap _ _ _) (by decide)⟩

/-! ## Invariants of the tables -/

/-- Claim C17 as stated fails on the chunk a;NaN\n: the value field parses to NaN without
error, processChunk delivers the aggregate with min, max and sum NaN and count 1, and NaN is
not less than or equal to the mean NaN / float32(1) = NaN.  The file a;NaN\n\n brings this
chunk to processChunk and this aggregate into the final table. -/
theorem aggregates_nan_outside_bounds :
    processChunk nanOps (bytesOf "a;NaN\n") = .ok [(bytesOf "a", ⟨none, none, none, 1⟩)] ∧
    finalTable nanOps chunkSize (bytesOf "a;NaN\n\n") =
      .ok [(bytesOf "a", ⟨none, none, none, 1⟩)] ∧
    nanOps.div none (nanOps.ofInt 1) = none ∧
    ¬ (nanLE none (nanOps.div none (nanOps.ofInt 1)) = true ∧
      nanLE (nanOps.div none (nanOps.ofInt 1)) none = true) := by
  decide

/-- Claim C17, amended: every aggregate of a partial table delivered by processChunk, and
every aggregate of the final table after the merge of any list of delivered tables, has a
count of at least 1, and its mean sum/cnt is between min and max whenever its min compares
less than or equal to itself, that is, whenever the stored value is not NaN.  The comparison
is any relation on the float values; the quotient of a value by float32(1) is the value. -/
theorem aggregates_mean_between_min_max_unless_nan {F : Type} (M : Float32Ops F)
    (le : F → F → Prop) (hdiv : ∀ x, M.div x (M.ofInt 1) = x) :
    (∀ buf t, processChunk M buf = .ok t → ∀ k d, (k, d) ∈ t →
      1 ≤ d.cnt ∧ (le d.min d.min → le d.min (M.div d.sum (M.ofInt d.cnt)) ∧
        le (M.div d.sum (M.ofInt d.cnt)) d.max)) ∧
    (∀ maps : List (Table F), (∀ t ∈ maps, ∃ buf, processChunk M buf = .ok t) →
      ∀ k d, (k, d) ∈ mergeLoop M maps →
        1 ≤ d.cnt ∧ (le d.min d.min → le d.min (M.div d.sum (M.ofInt d.cnt)) ∧
          le (M.div d.sum (M.ofInt d.cnt)) d.max)) := by
  have hseeded : ∀ d : stationData F, Seeded d →
      1 ≤ d.cnt ∧ (le d.min d.min → le d.min (M.div d.sum (M.ofInt d.cnt)) ∧
        le (M.div d.sum (M.ofInt d.cnt)) d.max) := by
    intro d hd
    obtain ⟨h1, h2, h3⟩ := hd
    rw [h1, h2, h3, hdiv]
    exact ⟨le_refl _, fun h => ⟨h, h⟩⟩
  constructor
  · intro buf t ht k d hmem
    exact hseeded d (seeded_processChunk M buf t ht k d hmem)
  · intro maps hmaps k d hmem
    apply hseeded d
    apply seeded_mergeLoop M maps _ k d hmem
    intro t ht k' d' hmem'
    obtain ⟨buf, hbuf⟩ := hmaps t ht
    exact seeded_processChunk M buf t hbuf k' d' hmem'

/-- The amended claim C17 in the interpretation with NaN, on the chunk with the lines a;1.5,
b;NaN and a;2.0: the aggregate of a has count 1 and its mean between its min and max, and the
aggregate of b, whose value is NaN, has count 1. -/
theorem aggregates_mean_between_min_max_unless_nan_witness :
    (∀ x, nanOps.div x (nanOps.ofInt 1) = x) ∧
    processChunk nanOps (bytesOf "a;1.5\nb;NaN\na;2.0\n") =
      .ok [(bytesOf "a", ⟨some (mkRat 3 2), some (mkRat 3 2), some (mkRat 3 2), 1⟩),
        (bytesOf "b", ⟨none, none, none, 1⟩)] ∧
    ((1 : Int) ≤ 1 ∧
      nanLE (some (mkRat 3 2)) (nanOps.div (some (mkRat 3 2)) (nanOps.ofInt 1)) = true ∧
      nanLE (nanOps.div (some (mkRat 3 2)) (nanOps.ofInt 1)) (some (mkRat 3 2)) = true) ∧
    (1 : Int) ≤ (⟨none, none, none, 1⟩ : stationData (Option ℚ)).cnt :=
  have hdiv : ∀ x, nanOps.div x (nanOps.ofInt 1) = x := by
    intro x
    cases x with
    | none => rfl
    | some q => simp [nanOps]
  have hchunk : processChunk nanOps (bytesOf "a;1.5\nb;NaN\na;2.0\n") =
      .ok [(bytesOf "a", ⟨some (mkRat 3 2), some (mkRat 3 2), some (mkRat 3 2), 1⟩),
        (bytesOf "b", ⟨none, none, none, 1⟩)] := by decide
  have ha := (aggregates_mean_between_min_max_unless_nan nanOps
    (fun a b => nanLE a b = true) hdiv).1 _ _ hchunk (bytesOf "a")
    ⟨some (mkRat 3 2), some (mkRat 3 2), some (mkRat 3 2), 1⟩ (by decide)
  have hb := (aggregates_mean_between_min_max_unless_nan nanOps
    (fun a b => nanLE a b = true) hdiv).1 _ _ hchunk (bytesOf "b")
    ⟨none, none, none, 1⟩ (by decide)
  ⟨hdiv, hchunk, ⟨ha.1, ha.2 (by decide)⟩, hb.1⟩

/-- Claim C19: when processChunk fails on none of the chunks, every aggregate of the final
table has count 1 and min, max and sum equal to one value, the value of the first observation
of its key in the first chunk, in the order of the merge, that has an observation of the key.
An aggregate once stored is changed neither by the later bytes of a chunk nor by the merge of
a later partial table. -/
theorem finalTable_first_observation_wins {F : Type} (M : Float32Ops F)
    (chunks : List (List Nat)) (maps : List (Table F)) (h : processAll M chunks = .ok maps) :
    (∀ k d, (k, d) ∈ mergeLoop M maps →
      ∃ temp, firstObservationIn M k chunks = some temp ∧ d = ⟨temp, temp, temp, 1⟩) ∧
    (∀ (st st' : ScanState F) (buf : List Nat) (k : Key) (d : stationData F),
      scanLoop M st buf = .ok st' → lookup k st.mp = some d → lookup k st'.mp = some d) ∧
    (∀ (mp smallMap : Table F) (k : Key) (d : stationData F),
      lookup k mp = some d → lookup k (mergeTable M mp smallMap) = some d) := by
  refine ⟨?_, ?_, ?_⟩
  · intro k d hmem
    have hl := lookup_of_mem k d _ (nodup_mergeLoop M maps) hmem
    rw [lookup_mergeLoop, findSome_lookup_processAll M chunks maps k h] at hl
    cases hf : firstObservationIn M k chunks with
    | none => simp [hf] at hl
    | some temp =>
      simp only [hf, Option.map_some'] at hl
      injection hl with hl
      exact ⟨temp, rfl, hl.symm⟩
  · intro st st' buf k d hscan hl
    rw [lookup_scanLoop M st st' buf k hscan, hl]
    rfl
  · intro mp smallMap k d hl
    rw [lookup_mergeTable, hl]
    rfl

/-- The claim C19 on two chunks that both observe the keys a and b. -/
theorem finalTable_first_observation_wins_witness :
    processAll ratOps [bytesOf "a;1.0\na;3.0\nb;2.0\n", bytesOf "b;4.0\na;9.0\nc;5.0\n"] =
      .ok [[(bytesOf "a", ⟨1, 1, 1, 1⟩), (bytesOf "b", ⟨2, 2, 2, 1⟩)],
        [(bytesOf "b", ⟨4, 4, 4, 1⟩), (bytesOf "a", ⟨9, 9, 9, 1⟩), (bytesOf "c", ⟨5, 5, 5, 1⟩)]] ∧
    (∀ k d, (k, d) ∈ mergeLoop ratOps
        [[(bytesOf "a", ⟨1, 1, 1, 1⟩), (bytesOf "b", ⟨2, 2, 2, 1⟩)],
          [(bytesOf "b", ⟨4, 4, 4, 1⟩), (bytesOf "a", ⟨9, 9, 9, 1⟩),
            (bytesOf "c", ⟨5, 5, 5, 1⟩)]] →
      ∃ temp, firstObservationIn ratOps k
          [bytesOf "a;1.0\na;3.0\nb;2.0\n", bytesOf "b;4.0\na;9.0\nc;5.0\n"] = some temp ∧
        d = ⟨temp, temp, temp, 1⟩) :=
  ⟨by decide,
    (finalTable_first_observation_wins ratOps
      [bytesOf "a;1.0\na;3.0\nb;2.0\n", bytesOf "b;4.0\na;9.0\nc;5.0\n"] _ (by decide)).1⟩

/-- Claim C20: a key is in the final table exactly when it is in one of the partial tables,
and the merge of an empty partial table leaves the table as it is. -/
theorem mergeLoop_keys_union {F : Type} (M : Float32Ops F) (maps : List (Table F)) :
    (∀ k, k ∈ (mergeLoop M maps).map Prod.fst ↔ ∃ t ∈ maps, k ∈ t.map Prod.fst) ∧
    (∀ mp : Table F, mergeTable M mp [] = mp) ∧
    mergeLoop M (maps ++ [[]]) = mergeLoop M maps := by
  refine ⟨?_, fun _ => rfl, ?_⟩
  · intro k
    rw [← not_iff_not, ← lookup_eq_none_iff, lookup_mergeLoop, List.findSome?_eq_none_iff]
    simp only [lookup_eq_none_iff, not_exists, not_and]
  · simp only [mergeLoop, List.foldl_append, List.foldl_cons, List.foldl_nil]
    rfl

end Brc
